import Mathlib

/-!
Verification of the generic fetch-descriptor protocol of the nurl
repository (src/simple.rs and src/fetcher/mod.rs), as a shallow
embedding in Lean.

Modelling notes.

The `SimpleFetcher` trait's associated constants and the `host` / `group`
methods are bundled into a `Backend` structure.  The backend arity `N`
is the length of `keys`.  The `Url` type is not under src/ (only its
callers are); following the spec, a URL is modelled by its ordered list
of path segments.  `FxHashMap<String, String>` is modelled by an
association list with first-match removal (`mapRemove`); the iteration
order of the entries remaining at the end of `write_nix` is unspecified
in the source, and the model fixes it to the list order.  Output written
through `writeln!` is modelled as the list of emitted lines; the byte
stream is those lines each followed by a newline, with the final `write!`
adding the last element without a newline.
-/

/-- The static metadata of a backend: the associated constants of the
`SimpleFetcher` trait together with the `host` and `group` methods.
Default field values mirror the trait's default associated constants. -/
structure Backend where
  keys : List String
  name : String
  hashKey : String := "hash"
  hostKey : String := "domain"
  revKey : String := "rev"
  submodulesDefault : Bool := false
  submodulesKey : Option String := none
  host : Option String := none
  group : Option String := none
deriving DecidableEq

/-- Rust `x.strip_suffix(".git").unwrap_or(x)`. -/
def stripGit (s : String) : String :=
  if s.endsWith ".git" then s.dropRight 4 else s

/-- Applies `stripGit` to the last element of a list, as in
`xs[N - 1] = xs[N - 1].strip_suffix(".git").unwrap_or(xs[N - 1])`. -/
def stripLastGit : List String → List String
  | [] => []
  | [x] => [stripGit x]
  | x :: y :: xs => x :: stripLastGit (y :: xs)

/-- `SimpleFetcher::get_values`: take the first chunk of size `n` of the
URL's path segments; fail when the segment iterator is empty
(`chunks(N).next()` returns `None`) or the first chunk has fewer than `n`
elements (`try_into` to `[_; N]` fails); strip `.git` from the last
element. -/
def getValues (n : Nat) (segs : List String) : Option (List String) :=
  match segs with
  | [] => none
  | _ :: _ =>
    if (segs.take n).length = n then some (stripLastGit (segs.take n)) else none

/-- `SimpleFetcher::resolve_submodules`:
`submodules.map_or(false, |s| s ^ Self::SUBMODULES_DEFAULT)`. -/
def resolveSubmodules (defaultFlag : Bool) : Option Bool → Bool
  | none => false
  | some s => xor s defaultFlag

/-- The default `SimpleFetcher::fetch_rev`: unconditionally bail with a
message naming the backend.  The identifiers argument is kept to state
that the result does not depend on it. -/
def fetchRevDefault (name : String) (_values : List String) : Except String String :=
  Except.error (name ++ " does not support fetching the latest revision")

/-- `FxHashMap::remove`: look up a key, returning the value (if any) and
the map without that entry.  With the map's unique keys, removing the
first matching entry of the association list is faithful. -/
def mapRemove (k : String) : List (String × String) → Option String × List (String × String)
  | [] => (none, [])
  | (k', v) :: rest =>
    if k' = k then (some v, rest)
    else
      let r := mapRemove k rest
      (r.1, (k', v) :: r.2)

/-- A text-serializer line for a raw (unquoted) value:
`writeln!(out, "{indent}  {key} = {value};")`. -/
def rawLine (indent k v : String) : String :=
  indent ++ "  " ++ k ++ " = " ++ v ++ ";"

/-- A text-serializer line for a quoted string value:
`writeln!(out, "{indent}  {key} = \"{value}\";")`. -/
def quotedLine (indent k v : String) : String :=
  indent ++ "  " ++ k ++ " = \"" ++ v ++ "\";"

/-- Rust `Display` for `bool`. -/
def boolStr (b : Bool) : String :=
  if b then "true" else "false"

/-- The loop over `Self::KEYS.iter().zip(values)` and the loop over
`args_str` in `write_nix`: remove the key from the overwrites, emit the
overwrite raw when present, else the computed value quoted. -/
def emitKeyValues (indent : String) :
    List (String × String) → List (String × String) → List String × List (String × String)
  | [], ow => ([], ow)
  | (k, v) :: rest, ow =>
    let r := mapRemove k ow
    let line := match r.1 with
      | some w => rawLine indent k w
      | none => quotedLine indent k v
    let rec' := emitKeyValues indent rest r.2
    (line :: rec'.1, rec'.2)

/-- The loop over `args` in `write_nix`:
`let value = overwrites.remove(&key).unwrap_or(value);` then emit raw. -/
def emitRawArgs (indent : String) :
    List (String × String) → List (String × String) → List String × List (String × String)
  | [], ow => ([], ow)
  | (k, v) :: rest, ow =>
    let r := mapRemove k ow
    let line := rawLine indent k (r.1.getD v)
    let rec' := emitRawArgs indent rest r.2
    (line :: rec'.1, rec'.2)

/-- `SimpleFetcher::write_nix`, emitted lines in order.  The first line is
`"{} {{"` with the backend name; the last is the closing brace after
`indent`. -/
def writeNix (B : Backend) (values : List String) (rev hash : String)
    (submodules : Bool) (args argsStr : List (String × String))
    (ow : List (String × String)) (indent : String) : List String :=
  let header := B.name ++ " \x7b"
  let rHost := mapRemove B.hostKey ow
  let hostLines : List String :=
    match rHost.1 with
    | some v => [rawLine indent B.hostKey v]
    | none =>
      match B.host with
      | some h => [quotedLine indent B.hostKey h]
      | none => []
  let rGroup := mapRemove "group" rHost.2
  let groupLines : List String :=
    match rGroup.1 with
    | some v => [rawLine indent "group" v]
    | none =>
      match B.group with
      | some g => [quotedLine indent "group" g]
      | none => []
  let rKeys := emitKeyValues indent (B.keys.zip values) rGroup.2
  let rRev := mapRemove B.revKey rKeys.2
  let revLine :=
    match rRev.1 with
    | some v => rawLine indent B.revKey v
    | none => quotedLine indent B.revKey rev
  let rHash := mapRemove B.hashKey rRev.2
  let hashLine :=
    match rHash.1 with
    | some v => rawLine indent B.hashKey v
    | none => quotedLine indent B.hashKey hash
  let rSubm : List String × List (String × String) :=
    match B.submodulesKey with
    | none => ([], rHash.2)
    | some k =>
      let r := mapRemove k rHash.2
      match r.1 with
      | some v => ([rawLine indent k v], r.2)
      | none =>
        (if submodules then [rawLine indent k (boolStr (!B.submodulesDefault))] else [],
         r.2)
  let rArgs := emitRawArgs indent args rSubm.2
  let rArgsStr := emitKeyValues indent argsStr rArgs.2
  let trailing := rArgsStr.2.map (fun kv => rawLine indent kv.1 kv.2)
  let footer := indent ++ "\x7d"
  header :: (hostLines ++ groupLines ++ rKeys.1 ++ [revLine, hashLine] ++ rSubm.1
    ++ rArgs.1 ++ rArgsStr.1 ++ trailing ++ [footer])

/-- The Overwrite Merger contract of the spec applied to one field:
`(field key, computed value if any, raw?)`.  If the overwrites contain
the key, remove the entry and emit its value raw; otherwise emit the
computed value, quoted unless the field is a raw one. -/
def mergeField (indent : String) (f : String × Option String × Bool)
    (ow : List (String × String)) : List String × List (String × String) :=
  let r := mapRemove f.1 ow
  match r.1 with
  | some v => ([rawLine indent f.1 v], r.2)
  | none =>
    match f.2.1 with
    | some c => ([if f.2.2 then rawLine indent f.1 c else quotedLine indent f.1 c], r.2)
    | none => ([], r.2)

/-- The canonical field pass of the Overwrite Merger: process the fields
in order, threading the shrinking set of remaining overwrites. -/
def processFields (indent : String) :
    List (String × Option String × Bool) → List (String × String) →
    List String × List (String × String)
  | [], ow => ([], ow)
  | f :: fs, ow =>
    let r := mergeField indent f ow
    let rest := processFields indent fs r.2
    (r.1 ++ rest.1, rest.2)

/-- The canonical field list of the text serializer, in order: host,
group, identifier keys, revision, hash, submodules (raw; computed value
present only when the flag is set and the backend has a submodules key),
raw extra args (raw), string extra args (quoted). -/
def specFields (B : Backend) (values : List String) (rev hash : String)
    (submodules : Bool) (args argsStr : List (String × String)) :
    List (String × Option String × Bool) :=
  [(B.hostKey, B.host, false), ("group", B.group, false)]
    ++ (B.keys.zip values).map (fun p => (p.1, some p.2, false))
    ++ [(B.revKey, some rev, false), (B.hashKey, some hash, false)]
    ++ (match B.submodulesKey with
        | some k =>
          [(k, if submodules then some (boolStr (!B.submodulesDefault)) else none, true)]
        | none => [])
    ++ args.map (fun p => (p.1, some p.2, true))
    ++ argsStr.map (fun p => (p.1, some p.2, false))

/-- The text serializer as the spec describes it: the canonical field
pass of the Overwrite Merger followed by the unconsumed overwrites,
emitted raw. -/
def writeNixSpec (B : Backend) (values : List String) (rev hash : String)
    (submodules : Bool) (args argsStr : List (String × String))
    (ow : List (String × String)) (indent : String) : List String :=
  let r := processFields indent (specFields B values rev hash submodules args argsStr) ow
  (B.name ++ " \x7b") ::
    (r.1 ++ r.2.map (fun kv => rawLine indent kv.1 kv.2) ++ [indent ++ "\x7d"])

/-- A JSON value, restricted to the shapes `write_json` assigns: plain
strings, booleans, and the two-field object written by
`json!` with fields `type` and `value` (constructor `expr tag v`, with
`tag` the string assigned to `type`). -/
inductive JValue where
  | str (s : String)
  | jbool (b : Bool)
  | expr (tag : String) (value : String)
deriving DecidableEq

/-- Lookup in a JSON object, modelled as an association list. -/
def jget (k : String) : List (String × JValue) → Option JValue
  | [] => none
  | (k', v) :: rest => if k' = k then some v else jget k rest

/-- `serde_json` object index assignment `obj[k] = v`: replace the
binding of `k` in place when present, else append it. -/
def jset (k : String) (v : JValue) : List (String × JValue) → List (String × JValue)
  | [] => [(k, v)]
  | (k', v') :: rest =>
    if k' = k then (k, v) :: rest else (k', v') :: jset k v rest

/-- A `for` loop assigning `obj[k] = f v` for each `(k, v)` of a list. -/
def jsetAll (f : String → JValue) (l : List (String × String))
    (m : List (String × JValue)) : List (String × JValue) :=
  l.foldl (fun m p => jset p.1 (f p.2) m) m

/-- The `args` object built by `SimpleFetcher::write_json`: identifier
keys zipped with values, then revision and hash; then host, group and
submodules when present; then raw extra args tagged as `nix`
expressions, string extra args plain; then raw overwrites tagged, string
overwrites plain — each later assignment replacing any earlier binding
of the same key. -/
def writeJsonArgs (B : Backend) (values : List String) (rev hash : String)
    (submodules : Bool) (args argsStr ow owStr : List (String × String)) :
    List (String × JValue) :=
  let m := jsetAll JValue.str (B.keys.zip values ++ [(B.revKey, rev), (B.hashKey, hash)]) []
  let m := match B.host with
    | some h => jset B.hostKey (JValue.str h) m
    | none => m
  let m := match B.group with
    | some g => jset "group" (JValue.str g) m
    | none => m
  let m :=
    if submodules then
      match B.submodulesKey with
      | some k => jset k (JValue.jbool (!B.submodulesDefault)) m
      | none => m
    else m
  let m := jsetAll (fun v => JValue.expr "nix" v) args m
  let m := jsetAll JValue.str argsStr m
  let m := jsetAll (fun v => JValue.expr "nix" v) ow m
  jsetAll JValue.str owStr m

/-- Concatenation of a list of strings, modelling a loop of `write!`
appends. -/
def concatAll : List String → String
  | [] => ""
  | s :: rest => s ++ concatAll rest

/-- The expression built by `SimpleFetcher::fetch_fod` before the final
`expr.push('}')`. -/
def fodOpen (B : Backend) (values : List String) (rev : String)
    (submodules : Bool) (args argsStr : List (String × String))
    (nixpkgs : String) : String :=
  "(import(" ++ nixpkgs ++ ")\x7b\x7d)." ++ B.name ++ "\x7b"
    ++ (match B.host with
        | some h => B.hostKey ++ "=\"" ++ h ++ "\";"
        | none => "")
    ++ (match B.group with
        | some g => "group=\"" ++ g ++ "\";"
        | none => "")
    ++ concatAll ((B.keys.zip values).map (fun p => p.1 ++ "=\"" ++ p.2 ++ "\";"))
    ++ B.revKey ++ "=\"" ++ rev ++ "\";"
    ++ B.hashKey ++ "=\"sha256-AAAAAAAAAAAAAAAAAAAAAAAAAAAAAAAAAAAAAAAAAAA=\";"
    ++ (if submodules then
          match B.submodulesKey with
          | some k => k ++ "=" ++ boolStr (!B.submodulesDefault) ++ ";"
          | none => ""
        else "")
    ++ concatAll (args.map (fun p => p.1 ++ "=" ++ p.2 ++ ";"))
    ++ concatAll (argsStr.map (fun p => p.1 ++ "=\"" ++ p.2 ++ "\";"))

/-- The full fixed-output-derivation expression handed to `fod_prefetch`
by `SimpleFetcher::fetch_fod`. -/
def fodExpr (B : Backend) (values : List String) (rev : String)
    (submodules : Bool) (args argsStr : List (String × String))
    (nixpkgs : String) : String :=
  fodOpen B values rev submodules args argsStr nixpkgs ++ "\x7d"

/-- The prefetch invocation a `fetch` implementation performs.  The
prefetch functions live in src/prefetch.rs, which is not under src/;
modelled from the spec as opaque capabilities, the embedding records
which one is called and with which arguments.  `gitClone a url rev b`
records `git_prefetch(a, url, rev, b)`; at the only call site `a` is the
literal `true` and `b` is `!SUBMODULES_DEFAULT`. -/
inductive PrefetchCall where
  | fod (expr : String)
  | flakeRef (r : String)
  | gitClone (a : Bool) (url : String) (rev : String) (b : Bool)
  | urlDownload (url : String) (unpack : Bool)
deriving DecidableEq

/-- True exactly on a `gitClone` prefetch call. -/
def isGitClone : PrefetchCall → Bool
  | PrefetchCall.gitClone _ _ _ _ => true
  | _ => false

/-- `SimpleFodFetcher::fetch`: always the generic strategy. -/
def fodFetch (B : Backend) (values : List String) (rev : String)
    (submodules : Bool) (args argsStr : List (String × String))
    (nixpkgs : String) : PrefetchCall :=
  PrefetchCall.fod (fodExpr B values rev submodules args argsStr nixpkgs)

/-- `SimpleFlakeFetcher::fetch`: the flake-reference strategy when both
extra-argument lists are empty, else the generic strategy.
`getFlakeRef` is the backend's `get_flake_ref` method. -/
def flakeFetch (B : Backend) (getFlakeRef : List String → String → Bool → String)
    (values : List String) (rev : String) (submodules : Bool)
    (args argsStr : List (String × String)) (nixpkgs : String) : PrefetchCall :=
  if args.isEmpty && argsStr.isEmpty then
    PrefetchCall.flakeRef (getFlakeRef values rev submodules)
  else
    PrefetchCall.fod (fodExpr B values rev submodules args argsStr nixpkgs)

/-- `SimpleGitFetcher::fetch`: when both extra-argument lists are empty,
a direct clone if submodules are requested and the flake-reference
strategy otherwise; with any extra argument, the generic strategy. -/
def gitFetch (B : Backend) (getFlakeRef : List String → String → String)
    (getRepoUrl : List String → String) (values : List String) (rev : String)
    (submodules : Bool) (args argsStr : List (String × String))
    (nixpkgs : String) : PrefetchCall :=
  if args.isEmpty && argsStr.isEmpty then
    if submodules then
      PrefetchCall.gitClone true (getRepoUrl values) rev (!B.submodulesDefault)
    else
      PrefetchCall.flakeRef (getFlakeRef values rev)
  else
    PrefetchCall.fod (fodExpr B values rev submodules args argsStr nixpkgs)

/-- `SimpleUrlFetcher::fetch`: direct download (with the backend's
`UNPACK` constant) when both extra-argument lists are empty, else the
generic strategy. -/
def urlFetch (B : Backend) (unpack : Bool) (getUrl : List String → String → String)
    (values : List String) (rev : String) (submodules : Bool)
    (args argsStr : List (String × String)) (nixpkgs : String) : PrefetchCall :=
  if args.isEmpty && argsStr.isEmpty then
    PrefetchCall.urlDownload (getUrl values rev) unpack
  else
    PrefetchCall.fod (fodExpr B values rev submodules args argsStr nixpkgs)

/-- The revision match of `impl_fetcher!`:
`match rev { Some(rev) => rev, None => self.fetch_rev(values)? }`.
`fetchRevO` stands for the backend's `fetch_rev` capability. -/
def resolveRev (rev : Option String) (fetchRevO : List String → Except String String)
    (values : List String) : Except String String :=
  match rev with
  | some r => Except.ok r
  | none => fetchRevO values

/-- `impl_fetcher!`'s `fetch_nix`: extraction, revision resolution,
submodules resolution, hash computation (`fetchO` stands for the
backend's `fetch` strategy), then — only on success of all of them —
the serialized lines.  On error nothing is written. -/
def fetchNixPipeline (B : Backend) (urlText : String) (segs : List String)
    (rev : Option String) (submodules : Option Bool)
    (args argsStr ow : List (String × String))
    (fetchRevO : List String → Except String String)
    (fetchO : List String → String → Bool → Except String String)
    (indent : String) : Except String (List String) :=
  match getValues B.keys.length segs with
  | none => Except.error ("failed to parse " ++ urlText)
  | some values =>
    match resolveRev rev fetchRevO values with
    | Except.error e => Except.error e
    | Except.ok r =>
      let sm := resolveSubmodules B.submodulesDefault submodules
      match fetchO values r sm with
      | Except.error e => Except.error e
      | Except.ok h => Except.ok (writeNix B values r h sm args argsStr ow indent)

/-- `impl_fetcher!`'s `fetch_hash`: same stages, and on success the bare
hash is the only output. -/
def fetchHashPipeline (B : Backend) (urlText : String) (segs : List String)
    (rev : Option String) (submodules : Option Bool)
    (fetchRevO : List String → Except String String)
    (fetchO : List String → String → Bool → Except String String) :
    Except String String :=
  match getValues B.keys.length segs with
  | none => Except.error ("failed to parse " ++ urlText)
  | some values =>
    match resolveRev rev fetchRevO values with
    | Except.error e => Except.error e
    | Except.ok r =>
      let sm := resolveSubmodules B.submodulesDefault submodules
      match fetchO values r sm with
      | Except.error e => Except.error e
      | Except.ok h => Except.ok h

/-- The lines written to the sink by `fetch_nix`: the serialized lines
on success, nothing on error. -/
def linesWritten : Except String (List String) → List String
  | Except.ok l => l
  | Except.error _ => []

/-- The bytes written to the sink by `fetch_hash`: the hash on success,
nothing on error. -/
def strWritten : Except String String → String
  | Except.ok s => s
  | Except.error _ => ""

/-- The `FetchFromGitHub` backend descriptor (src/fetcher/github.rs) with
no host override, used as a concrete instance. -/
def ghBackend : Backend :=
  { keys := ["owner", "repo"], name := "fetchFromGitHub", hostKey := "githubBase" }

/-- A minimal arity-1 backend with all optional capabilities absent,
used as a concrete instance. -/
def exBackend : Backend :=
  { keys := ["owner"], name := "f" }

/-- Concatenation distributes over `concatAll`. -/
theorem concatAll_append (l₁ l₂ : List String) :
    concatAll (l₁ ++ l₂) = concatAll l₁ ++ concatAll l₂ := by
  induction l₁ with
  | nil => rfl
  | cons s l ih =>
    simp only [List.cons_append, concatAll, List.append_eq, ih, String.append_assoc]

/-- C5: the resolved submodules flag is the XOR of the caller value with
the backend default when the caller supplies one, else false; in
particular default true with caller true resolves to false. -/
theorem c5_submodules_xor (c d : Bool) :
    resolveSubmodules d (some c) = xor c d
    ∧ resolveSubmodules d none = false
    ∧ resolveSubmodules true (some true) = false :=
  ⟨rfl, rfl, rfl⟩

/-- C6: with a caller-supplied revision the resolver returns it
unchanged, its result does not depend on the revision-auto-resolution
capability, and neither does the whole `fetch_nix` pipeline — the
capability is never invoked. -/
theorem c6_caller_revision (r : String) (o o' : List String → Except String String)
    (values : List String) (B : Backend) (urlText : String) (segs : List String)
    (subm : Option Bool) (args argsStr ow : List (String × String))
    (fetchO : List String → String → Bool → Except String String) (indent : String) :
    resolveRev (some r) o values = Except.ok r
    ∧ resolveRev (some r) o values = resolveRev (some r) o' values
    ∧ fetchNixPipeline B urlText segs (some r) subm args argsStr ow o fetchO indent
      = fetchNixPipeline B urlText segs (some r) subm args argsStr ow o' fetchO indent :=
  ⟨rfl, rfl, rfl⟩

/-- C7: the default `fetch_rev` of a backend without the
revision-auto-resolution capability always fails with an error naming
the backend, independently of the identifiers. -/
theorem c7_unsupported (name : String) (vs vs' : List String) :
    fetchRevDefault name vs
      = Except.error (name ++ " does not support fetching the latest revision")
    ∧ fetchRevDefault name vs = fetchRevDefault name vs' :=
  ⟨rfl, rfl⟩

/-- C4: extraction fails on fewer than `n` path segments; with at least
`n` segments it returns the first `n` (trailing segments ignored) with
`.git` stripped from the last returned identifier only. -/
theorem c4_identifier_extraction (n : Nat) (hn : 0 < n) (segs extra xs : List String)
    (x : String) :
    (segs.length < n → getValues n segs = none)
    ∧ (n ≤ segs.length → getValues n segs = some (stripLastGit (segs.take n)))
    ∧ (n ≤ segs.length → getValues n (segs ++ extra) = getValues n segs)
    ∧ stripLastGit (xs ++ [x]) = xs ++ [stripGit x] := by
  have hlast : ∀ (ys : List String) (y : String),
      stripLastGit (ys ++ [y]) = ys ++ [stripGit y] := by
    intro ys
    induction ys with
    | nil => intro y; rfl
    | cons a l ih =>
      intro y
      cases l with
      | nil => simp [stripLastGit]
      | cons b l' => simpa [stripLastGit] using ih y
  have hsome : ∀ (l : List String), n ≤ l.length →
      getValues n l = some (stripLastGit (l.take n)) := by
    intro l hl
    cases l with
    | nil =>
      simp only [List.length_nil, Nat.le_zero] at hl
      omega
    | cons a l' =>
      simp only [getValues]
      rw [if_pos]
      simp only [List.length_take]
      omega
  refine ⟨?_, hsome segs, ?_, hlast xs x⟩
  · intro hlt
    cases segs with
    | nil => rfl
    | cons a l' =>
      simp only [getValues]
      rw [if_neg]
      simp only [List.length_take]
      omega
  · intro hle
    rw [hsome segs hle, hsome (segs ++ extra) (by simp only [List.length_append]; omega),
      List.take_append_of_le_length hle]

/-- C4 witness at a concrete URL path. -/
theorem c4_identifier_extraction_w :
    ((["octocat", "hello-world.git", "z"] : List String).length < 2 →
      getValues 2 ["octocat", "hello-world.git", "z"] = none)
    ∧ (2 ≤ (["octocat", "hello-world.git", "z"] : List String).length →
      getValues 2 ["octocat", "hello-world.git", "z"]
        = some (stripLastGit ((["octocat", "hello-world.git", "z"] : List String).take 2)))
    ∧ (2 ≤ (["octocat", "hello-world.git", "z"] : List String).length →
      getValues 2 (["octocat", "hello-world.git", "z"] ++ ["w"])
        = getValues 2 ["octocat", "hello-world.git", "z"])
    ∧ stripLastGit (["a"] ++ ["b.git"]) = ["a"] ++ [stripGit "b.git"] :=
  c4_identifier_extraction 2 (by decide) ["octocat", "hello-world.git", "z"] ["w"] ["a"] "b.git"

/-- C8: for flake-reference and direct-download backends the specialized
strategy is used exactly when both extra-argument lists are empty;
otherwise the generic fixed-output-derivation strategy is used. -/
theorem c8_fallback (B : Backend) (fr : List String → String → Bool → String)
    (unpack : Bool) (gu : List String → String → String) (values : List String)
    (rev : String) (sm : Bool) (args argsStr : List (String × String)) (np : String) :
    (args = [] → argsStr = [] →
      flakeFetch B fr values rev sm args argsStr np
        = PrefetchCall.flakeRef (fr values rev sm)
      ∧ urlFetch B unpack gu values rev sm args argsStr np
        = PrefetchCall.urlDownload (gu values rev) unpack)
    ∧ (args ≠ [] ∨ argsStr ≠ [] →
      flakeFetch B fr values rev sm args argsStr np
        = PrefetchCall.fod (fodExpr B values rev sm args argsStr np)
      ∧ urlFetch B unpack gu values rev sm args argsStr np
        = PrefetchCall.fod (fodExpr B values rev sm args argsStr np)) := by
  constructor
  · rintro rfl rfl
    exact ⟨rfl, rfl⟩
  · intro h
    have hne : (args.isEmpty && argsStr.isEmpty) = false := by
      rcases h with h | h <;> cases args <;> cases argsStr <;> simp_all
    unfold flakeFetch urlFetch
    rw [hne]
    exact ⟨rfl, rfl⟩

/-- C8 witness: a concrete extra raw argument forces the generic
strategy for both specialized fetcher kinds. -/
theorem c8_fallback_w :
    flakeFetch ghBackend (fun _ _ _ => "ref") ["o", "r"] "rev" false
        [("a", "b")] [] "np"
      = PrefetchCall.fod (fodExpr ghBackend ["o", "r"] "rev" false [("a", "b")] [] "np")
    ∧ urlFetch ghBackend true (fun _ _ => "u") ["o", "r"] "rev" false
        [("a", "b")] [] "np"
      = PrefetchCall.fod (fodExpr ghBackend ["o", "r"] "rev" false [("a", "b")] [] "np") :=
  (c8_fallback ghBackend (fun _ _ _ => "ref") true (fun _ _ => "u") ["o", "r"] "rev"
    false [("a", "b")] [] "np").2 (Or.inl (by decide))

/-- C3 counterexample: submodules are requested but an extra raw
argument is present; the git-capability fetcher does not clone — it
falls back to the generic strategy. -/
theorem c3_strategy_cex :
    isGitClone (gitFetch ghBackend (fun _ _ => "ref") (fun _ => "url") ["o", "r"]
      "deadbeef" true [("a", "b")] [] "np") = false :=
  rfl

/-- C3 amended: with both extra-argument lists empty, a requested
submodules flag selects the direct clone of the repository URL at the
revision (the clone capability invoked with `true` and the negation of
the backend submodules default), and an unset flag selects the
flake-reference strategy; with any extra argument present the generic
fixed-output-derivation strategy is used. -/
theorem c3_strategy (B : Backend) (fr : List String → String → String)
    (ru : List String → String) (values : List String) (rev : String) (sm : Bool)
    (args argsStr : List (String × String)) (np : String) :
    (args = [] → argsStr = [] → sm = true →
      gitFetch B fr ru values rev sm args argsStr np
        = PrefetchCall.gitClone true (ru values) rev (!B.submodulesDefault))
    ∧ (args = [] → argsStr = [] → sm = false →
      gitFetch B fr ru values rev sm args argsStr np
        = PrefetchCall.flakeRef (fr values rev))
    ∧ (args ≠ [] ∨ argsStr ≠ [] →
      gitFetch B fr ru values rev sm args argsStr np
        = PrefetchCall.fod (fodExpr B values rev sm args argsStr np)) := by
  refine ⟨?_, ?_, ?_⟩
  · rintro rfl rfl rfl; rfl
  · rintro rfl rfl rfl; rfl
  · intro h
    have hne : (args.isEmpty && argsStr.isEmpty) = false := by
      rcases h with h | h <;> cases args <;> cases argsStr <;> simp_all
    simp [gitFetch, hne]

/-- C3 witness: concrete clone selection with empty extra arguments. -/
theorem c3_strategy_w :
    gitFetch ghBackend (fun _ _ => "ref") (fun _ => "url") ["o", "r"]
      "deadbeef" true [] [] "np"
      = PrefetchCall.gitClone true "url" "deadbeef" (!ghBackend.submodulesDefault) :=
  (c3_strategy ghBackend (fun _ _ => "ref") (fun _ => "url") ["o", "r"] "deadbeef"
    true [] [] "np").1 rfl rfl rfl

/-- C9: when identifier extraction, revision resolution, or hash
computation fails, both output pipelines return the error, and nothing
is written to the sink (serialization happens only after the hash is
known). -/
theorem c9_fail_fast (B : Backend) (urlText : String) (segs : List String)
    (rev : Option String) (sm : Option Bool) (args argsStr ow : List (String × String))
    (fro : List String → Except String String)
    (fo : List String → String → Bool → Except String String) (indent : String) :
    (getValues B.keys.length segs = none →
      fetchNixPipeline B urlText segs rev sm args argsStr ow fro fo indent
        = Except.error ("failed to parse " ++ urlText)
      ∧ fetchHashPipeline B urlText segs rev sm fro fo
        = Except.error ("failed to parse " ++ urlText))
    ∧ (∀ values e, getValues B.keys.length segs = some values →
      resolveRev rev fro values = Except.error e →
      fetchNixPipeline B urlText segs rev sm args argsStr ow fro fo indent
        = Except.error e
      ∧ fetchHashPipeline B urlText segs rev sm fro fo = Except.error e)
    ∧ (∀ values r e, getValues B.keys.length segs = some values →
      resolveRev rev fro values = Except.ok r →
      fo values r (resolveSubmodules B.submodulesDefault sm) = Except.error e →
      fetchNixPipeline B urlText segs rev sm args argsStr ow fro fo indent
        = Except.error e
      ∧ fetchHashPipeline B urlText segs rev sm fro fo = Except.error e)
    ∧ (∀ e, fetchNixPipeline B urlText segs rev sm args argsStr ow fro fo indent
        = Except.error e →
      linesWritten (fetchNixPipeline B urlText segs rev sm args argsStr ow fro fo indent)
        = [])
    ∧ (∀ e, fetchHashPipeline B urlText segs rev sm fro fo = Except.error e →
      strWritten (fetchHashPipeline B urlText segs rev sm fro fo) = "") := by
  refine ⟨?_, ?_, ?_, ?_, ?_⟩
  · intro h
    constructor <;> simp [fetchNixPipeline, fetchHashPipeline, h]
  · intro values e h1 h2
    constructor <;> simp [fetchNixPipeline, fetchHashPipeline, h1, h2]
  · intro values r e h1 h2 h3
    constructor <;> simp [fetchNixPipeline, fetchHashPipeline, h1, h2, h3]
  · intro e h
    rw [h]
    rfl
  · intro e h
    rw [h]
    rfl

/-- C9 witness: a one-segment URL for an arity-2 backend fails
extraction, the pipeline returns the parse error, and no line is
written. -/
theorem c9_fail_fast_w :
    (getValues ghBackend.keys.length ["x"] = none →
      fetchNixPipeline ghBackend "https://github.com/x" ["x"] none none [] [] []
          (fun _ => Except.error "no") (fun _ _ _ => Except.ok "h") ""
        = Except.error ("failed to parse " ++ "https://github.com/x")
      ∧ fetchHashPipeline ghBackend "https://github.com/x" ["x"] none none
          (fun _ => Except.error "no") (fun _ _ _ => Except.ok "h")
        = Except.error ("failed to parse " ++ "https://github.com/x"))
    ∧ (getValues ghBackend.keys.length ["x"] = none)
    ∧ linesWritten (fetchNixPipeline ghBackend "https://github.com/x" ["x"] none none
        [] [] [] (fun _ => Except.error "no") (fun _ _ _ => Except.ok "h") "") = [] := by
  have h := c9_fail_fast ghBackend "https://github.com/x" ["x"] none none [] [] []
    (fun _ => Except.error "no") (fun _ _ _ => Except.ok "h") ""
  have hex : getValues ghBackend.keys.length ["x"] = none := by decide
  exact ⟨h.1, hex, h.2.2.2.1 ("failed to parse " ++ "https://github.com/x")
    (h.1 hex).1⟩

/-- Assigning a key makes lookup return the assigned value. -/
theorem jget_jset_self (k : String) (v : JValue) (m : List (String × JValue)) :
    jget k (jset k v m) = some v := by
  induction m with
  | nil => simp [jget, jset]
  | cons p rest ih =>
    obtain ⟨k', v'⟩ := p
    by_cases h : k' = k
    · subst h
      simp [jget, jset]
    · simp [jget, jset, h, ih]

/-- Assigning a different key leaves lookup unchanged. -/
theorem jget_jset_ne (k k' : String) (v : JValue) (m : List (String × JValue))
    (h : k' ≠ k) : jget k (jset k' v m) = jget k m := by
  induction m with
  | nil => simp [jget, jset, h]
  | cons p rest ih =>
    obtain ⟨k'', v''⟩ := p
    by_cases h2 : k'' = k'
    · subst h2
      simp [jget, jset, h]
    · simp only [jset, if_neg h2, jget]
      by_cases h3 : k'' = k
      · simp [h3]
      · simp [h3, ih]

/-- A loop of assignments over keys other than `k` leaves lookup at `k`
unchanged. -/
theorem jget_jsetAll_notmem (k : String) (f : String → JValue)
    (l : List (String × String)) (m : List (String × JValue))
    (h : k ∉ l.map Prod.fst) : jget k (jsetAll f l m) = jget k m := by
  induction l generalizing m with
  | nil => rfl
  | cons p rest ih =>
    simp only [List.map_cons, List.mem_cons] at h
    push_neg at h
    show jget k (jsetAll f rest (jset p.1 (f p.2) m)) = jget k m
    rw [ih _ h.2]
    exact jget_jset_ne k p.1 (f p.2) m (fun he => h.1 he.symm)

/-- `jsetAll` splits over list concatenation. -/
theorem jsetAll_append (f : String → JValue) (l₁ l₂ : List (String × String))
    (m : List (String × JValue)) :
    jsetAll f (l₁ ++ l₂) m = jsetAll f l₂ (jsetAll f l₁ m) := by
  simp [jsetAll, List.foldl_append]

/-- After a loop of assignments, lookup returns the value of the last
assignment to the key. -/
theorem jget_jsetAll_last (k v : String) (f : String → JValue)
    (l₁ l₂ : List (String × String)) (m : List (String × JValue))
    (h : k ∉ l₂.map Prod.fst) :
    jget k (jsetAll f (l₁ ++ (k, v) :: l₂) m) = some (f v) := by
  rw [jsetAll_append]
  show jget k (jsetAll f l₂ (jset k (f v) (jsetAll f l₁ m))) = some (f v)
  rw [jget_jsetAll_notmem k f l₂ _ h, jget_jset_self]

/-- C2 counterexample: in JSON output the raw extra argument
`sparseCheckout` is tagged with type `nix`, not type `expression` as the
claim states. -/
theorem c2_json_cex :
    jget "sparseCheckout" (writeJsonArgs ghBackend ["octocat", "repo"] "abc" "h" false
        [("sparseCheckout", "[\"src\"]")] [] [] [])
      ≠ some (JValue.expr "expression" "[\"src\"]")
    ∧ jget "sparseCheckout" (writeJsonArgs ghBackend ["octocat", "repo"] "abc" "h" false
        [("sparseCheckout", "[\"src\"]")] [] [] [])
      = some (JValue.expr "nix" "[\"src\"]") := by
  constructor <;> decide

/-- C2 amended: raw extra arguments and raw overwrites are emitted as
objects tagged with type `nix`, string extra arguments and string
overwrites as plain JSON strings, and overwrites are assigned last, so
an overwrite for a key replaces the previously computed value; in
particular the extra raw argument `sparseCheckout` yields a
`nix`-tagged expression object. -/
theorem c2_json_overwrites (B : Backend) (values : List String) (rev hash : String)
    (sm : Bool) (args args2 argsStr argsStr2 ow ow2 owStr owStr2 : List (String × String))
    (k v : String) :
    (k ∉ ow2.map Prod.fst → k ∉ owStr.map Prod.fst →
      jget k (writeJsonArgs B values rev hash sm args argsStr (ow ++ (k, v) :: ow2) owStr)
        = some (JValue.expr "nix" v))
    ∧ (k ∉ owStr2.map Prod.fst →
      jget k (writeJsonArgs B values rev hash sm args argsStr ow (owStr ++ (k, v) :: owStr2))
        = some (JValue.str v))
    ∧ (k ∉ args2.map Prod.fst → k ∉ argsStr.map Prod.fst → k ∉ ow.map Prod.fst →
        k ∉ owStr.map Prod.fst →
      jget k (writeJsonArgs B values rev hash sm (args ++ (k, v) :: args2) argsStr ow owStr)
        = some (JValue.expr "nix" v))
    ∧ (k ∉ argsStr2.map Prod.fst → k ∉ ow.map Prod.fst → k ∉ owStr.map Prod.fst →
      jget k (writeJsonArgs B values rev hash sm args (argsStr ++ (k, v) :: argsStr2) ow owStr)
        = some (JValue.str v))
    ∧ jget "sparseCheckout" (writeJsonArgs ghBackend ["octocat", "repo"] "abc" "h" false
        [("sparseCheckout", "[\"src\"]")] [] [] [])
      = some (JValue.expr "nix" "[\"src\"]") := by
  refine ⟨?_, ?_, ?_, ?_, by decide⟩
  · intro h1 h2
    unfold writeJsonArgs
    rw [jget_jsetAll_notmem _ _ _ _ h2]
    exact jget_jsetAll_last k v _ ow ow2 _ h1
  · intro h1
    unfold writeJsonArgs
    exact jget_jsetAll_last k v _ owStr owStr2 _ h1
  · intro h1 h2 h3 h4
    unfold writeJsonArgs
    rw [jget_jsetAll_notmem _ _ _ _ h4, jget_jsetAll_notmem _ _ _ _ h3,
      jget_jsetAll_notmem _ _ _ _ h2]
    exact jget_jsetAll_last k v _ args args2 _ h1
  · intro h1 h2 h3
    unfold writeJsonArgs
    rw [jget_jsetAll_notmem _ _ _ _ h3, jget_jsetAll_notmem _ _ _ _ h2]
    exact jget_jsetAll_last k v _ argsStr argsStr2 _ h1

/-- C2 witness: a concrete raw overwrite replaces the computed revision
value with a nix-tagged expression. -/
theorem c2_json_overwrites_w :
    jget "rev" (writeJsonArgs ghBackend ["octocat", "repo"] "abc" "h" false [] []
        ([] ++ ("rev", "builtins.fetchGitRev") :: []) [])
      = some (JValue.expr "nix" "builtins.fetchGitRev") :=
  (c2_json_overwrites ghBackend ["octocat", "repo"] "abc" "h" false [] [] [] [] []
    [] [] [] "rev" "builtins.fetchGitRev").1 (by decide) (by decide)

/-- With no overwrites, the key-value loops consume nothing. -/
theorem emitKeyValues_nil_ow (ind : String) (ps : List (String × String)) :
    (emitKeyValues ind ps []).2 = [] := by
  induction ps with
  | nil => rfl
  | cons p rest ih =>
    obtain ⟨k, v⟩ := p
    simpa [emitKeyValues, mapRemove] using ih

/-- With no overwrites, the raw-argument loop consumes nothing. -/
theorem emitRawArgs_nil_ow (ind : String) (ps : List (String × String)) :
    (emitRawArgs ind ps []).2 = [] := by
  induction ps with
  | nil => rfl
  | cons p rest ih =>
    obtain ⟨k, v⟩ := p
    simpa [emitRawArgs, mapRemove] using ih

/-- C10: values are embedded verbatim with no escaping.  Appending a
string extra argument appends exactly `key="value";` to the
fixed-output-derivation expression, character for character; with no
overwrite for the revision key the text serializer emits the revision
verbatim inside double quotes; and a concrete identifier and revision
containing a double quote and a semicolon are emitted with those
characters intact inside the quoted literals. -/
theorem c10_verbatim (B : Backend) (values : List String) (rev hash : String)
    (sm : Bool) (args argsStr : List (String × String)) (np indent k v : String) :
    fodOpen B values rev sm args (argsStr ++ [(k, v)]) np
      = fodOpen B values rev sm args argsStr np ++ (k ++ "=\"" ++ v ++ "\";")
    ∧ fodExpr B values rev sm args (argsStr ++ [(k, v)]) np
      = fodOpen B values rev sm args argsStr np ++ (k ++ "=\"" ++ v ++ "\";") ++ "\x7d"
    ∧ quotedLine indent B.revKey rev ∈ writeNix B values rev hash sm args argsStr [] indent
    ∧ writeNix ghBackend ["octo\"cat", "repo"] "ab\"c;d" "h" false [] [] [] ""
      = ["fetchFromGitHub \x7b", "  owner = \"octo\"cat\";", "  repo = \"repo\";",
         "  rev = \"ab\"c;d\";", "  hash = \"h\";", "\x7d"] := by
  have h1 : fodOpen B values rev sm args (argsStr ++ [(k, v)]) np
      = fodOpen B values rev sm args argsStr np ++ (k ++ "=\"" ++ v ++ "\";") := by
    simp only [fodOpen, List.map_append, concatAll_append, List.map_cons, List.map_nil,
      concatAll, String.append_empty, String.append_assoc]
  refine ⟨h1, ?_, ?_, by decide⟩
  · rw [fodExpr, h1]
  · simp only [writeNix, mapRemove, emitKeyValues_nil_ow]
    simp [List.mem_append]

/-- One merge step leaves the remaining overwrites exactly as the
removal does. -/
theorem mergeField_snd (ind : String) (f : String × Option String × Bool)
    (ow : List (String × String)) :
    (mergeField ind f ow).2 = (mapRemove f.1 ow).2 := by
  cases h : (mapRemove f.1 ow).1 with
  | none => cases h2 : f.2.1 <;> simp [mergeField, h, h2]
  | some v => simp [mergeField, h]

/-- One step of the canonical field pass. -/
theorem processFields_cons (ind : String) (f : String × Option String × Bool)
    (fs : List (String × Option String × Bool)) (ow : List (String × String)) :
    processFields ind (f :: fs) ow
      = ((mergeField ind f ow).1 ++ (processFields ind fs (mergeField ind f ow).2).1,
         (processFields ind fs (mergeField ind f ow).2).2) := by
  simp [processFields]

/-- The canonical field pass splits over list concatenation. -/
theorem processFields_append (ind : String) (fs1 fs2 : List (String × Option String × Bool))
    (ow : List (String × String)) :
    processFields ind (fs1 ++ fs2) ow
      = ((processFields ind fs1 ow).1
          ++ (processFields ind fs2 (processFields ind fs1 ow).2).1,
         (processFields ind fs2 (processFields ind fs1 ow).2).2) := by
  induction fs1 generalizing ow with
  | nil => simp [processFields]
  | cons f fs ih => simp [processFields, ih, List.append_assoc]

/-- The quoted key-value loop of `write_nix` is the canonical field pass
over quoted fields. -/
theorem emitKeyValues_eq (ind : String) (ps ow : List (String × String)) :
    emitKeyValues ind ps ow
      = processFields ind (ps.map (fun p => (p.1, some p.2, false))) ow := by
  induction ps generalizing ow with
  | nil => rfl
  | cons p rest ih =>
    obtain ⟨k, v⟩ := p
    simp only [List.map_cons, emitKeyValues, processFields, mergeField, ih]
    cases h : (mapRemove k ow).1 <;> simp [h]

/-- The raw-argument loop of `write_nix` is the canonical field pass
over raw fields. -/
theorem emitRawArgs_eq (ind : String) (ps ow : List (String × String)) :
    emitRawArgs ind ps ow
      = processFields ind (ps.map (fun p => (p.1, some p.2, true))) ow := by
  induction ps generalizing ow with
  | nil => rfl
  | cons p rest ih =>
    obtain ⟨k, v⟩ := p
    simp only [List.map_cons, emitRawArgs, processFields, mergeField, ih]
    cases h : (mapRemove k ow).1 <;> simp [h]

/-- C1 counterexample: a raw extra argument not present in the
overwrites is emitted unquoted, not as a double-quoted string as the
claim states. -/
theorem c1_text_merge_cex :
    writeNix exBackend ["o"] "r" "h" false [("foo", "bar")] [] [] ""
      = ["f \x7b", "  owner = \"o\";", "  rev = \"r\";", "  hash = \"h\";",
         "  foo = bar;", "\x7d"]
    ∧ "  foo = \"bar\";" ∉
      writeNix exBackend ["o"] "r" "h" false [("foo", "bar")] [] [] "" := by
  constructor <;> decide

set_option maxHeartbeats 2000000 in
/-- C1 amended: the text output is exactly the Overwrite Merger pass
over the canonical field order (host, group, identifier keys, revision,
hash, submodules, raw extra args, string extra args) — a field whose key
is in the overwrites has the entry removed and its value emitted
unquoted, otherwise the computed value is emitted double-quoted, except
that raw extra args and the computed submodules boolean are emitted
unquoted — followed by every unconsumed overwrite entry appended at the
end, emitted raw. -/
theorem c1_text_merge (B : Backend) (values : List String) (rev hash : String)
    (sm : Bool) (args argsStr ow : List (String × String)) (indent : String) :
    writeNix B values rev hash sm args argsStr ow indent
      = writeNixSpec B values rev hash sm args argsStr ow indent := by
  cases hS : B.submodulesKey with
  | none =>
    simp only [writeNix, writeNixSpec, specFields, hS, List.cons_append,
      List.nil_append, List.append_assoc, processFields_cons, processFields_append,
      ← emitKeyValues_eq, ← emitRawArgs_eq]
    rcases hH : mapRemove B.hostKey ow with ⟨oH, ow1⟩
    rcases hG : mapRemove "group" ow1 with ⟨oG, ow2⟩
    rcases hK : emitKeyValues indent (B.keys.zip values) ow2 with ⟨lK, ow3⟩
    rcases hR : mapRemove B.revKey ow3 with ⟨oR, ow4⟩
    rcases hHa : mapRemove B.hashKey ow4 with ⟨oHa, ow5⟩
    rcases hA : emitRawArgs indent args ow5 with ⟨lA, ow6⟩
    rcases hAS : emitKeyValues indent argsStr ow6 with ⟨lAS, ow7⟩
    cases oH <;> cases oG <;> cases oR <;> cases oHa <;>
      cases B.host <;> cases B.group <;>
      simp [mergeField, hH, hG, hK, hR, hHa, hA, hAS, List.append_assoc]
  | some k =>
    simp only [writeNix, writeNixSpec, specFields, hS, List.cons_append,
      List.nil_append, List.append_assoc, processFields_cons, processFields_append,
      ← emitKeyValues_eq, ← emitRawArgs_eq]
    rcases hH : mapRemove B.hostKey ow with ⟨oH, ow1⟩
    rcases hG : mapRemove "group" ow1 with ⟨oG, ow2⟩
    rcases hK : emitKeyValues indent (B.keys.zip values) ow2 with ⟨lK, ow3⟩
    rcases hR : mapRemove B.revKey ow3 with ⟨oR, ow4⟩
    rcases hHa : mapRemove B.hashKey ow4 with ⟨oHa, ow5⟩
    rcases hSm : mapRemove k ow5 with ⟨oS, ow6⟩
    rcases hA : emitRawArgs indent args ow6 with ⟨lA, ow7⟩
    rcases hAS : emitKeyValues indent argsStr ow7 with ⟨lAS, ow8⟩
    cases oH <;> cases oG <;> cases oR <;> cases oHa <;> cases oS <;>
      cases B.host <;> cases B.group <;> cases sm <;>
      simp [mergeField, hH, hG, hK, hR, hHa, hSm, hA, hAS, List.append_assoc]
